import Mathlib

/-!
Shallow embedding of the ZKMock repository (src/circuit.rs, src/r1cs.rs,
src/merkle.rs).  Rust panics (index out of bounds, missing hash function,
bad proof-file format) are modelled by `Except PanicKind`; arbitrary-precision
`BigInt` is modelled by `Int`; the pluggable `HashFunction` capability is a
plain function `Int → Int → Int` (optional where the source stores an
`Option<Box<dyn HashFunction>>`).
-/

namespace ZKMock

/-- The distinct fatal-error (panic) classes occurring in the sources. -/
inductive PanicKind where
  | indexOutOfBounds
  | hashFunctionNotDefined
  | invalidProofDataFormat
deriving DecidableEq, Repr

/-! ## r1cs.rs -/

/-- `Variable` from r1cs.rs: an index tagged with a snapshotted value. -/
structure Variable where
  index : Nat
  value : Int
deriving DecidableEq, Repr

/-- `Operation` from r1cs.rs. -/
inductive Operation where
  | add
  | mul
  | hash
deriving DecidableEq, Repr

/-- `Constraint` from r1cs.rs: three linear combinations and an operation. -/
structure Constraint where
  left : List (Variable × Int)
  right : List (Variable × Int)
  output : List (Variable × Int)
  operation : Operation
deriving DecidableEq, Repr

/-- Evaluation of a linear combination inside `R1CS::is_satisfied`:
`constraint.side.iter().map(|(var, coeff)| &var.value * coeff).sum()`. -/
def lcValue (lc : List (Variable × Int)) : Int :=
  (lc.map fun t => t.1.value * t.2).sum

/-- One constraint check from the body of `R1CS::is_satisfied`, with the hash
closure that `Circuit::generate_proof` passes in (it panics with
"Hash function not defined for this circuit" when `hash_function` is `None`). -/
def checkConstraint (hash_function : Option (Int → Int → Int)) (c : Constraint) :
    Except PanicKind Bool :=
  let left_value := lcValue c.left
  let right_value := lcValue c.right
  let output_value := lcValue c.output
  match c.operation with
  | .add => .ok (decide (left_value + right_value = output_value))
  | .mul => .ok (decide (left_value * right_value = output_value))
  | .hash =>
    match hash_function with
    | some f => .ok (decide (f left_value right_value = output_value))
    | none => .error .hashFunctionNotDefined

/-- `R1CS::is_satisfied` over the constraint list, in insertion order: the
first failing check returns `false` immediately; a `Hash` check with no hash
function panics; if every check passes the result is `true`. -/
def is_satisfied (hash_function : Option (Int → Int → Int)) :
    List Constraint → Except PanicKind Bool
  | [] => .ok true
  | c :: cs =>
    match checkConstraint hash_function c with
    | .ok true => is_satisfied hash_function cs
    | .ok false => .ok false
    | .error e => .error e

/-! ## circuit.rs -/

/-- `Gate` from circuit.rs: each field indexes the circuit input sequence. -/
inductive Gate where
  | add (a b output : Nat)
  | mul (a b output : Nat)
  | hash (a b output : Nat)
deriving DecidableEq, Repr

/-- Translation of one gate into one constraint, from the gate loop of
`Circuit::generate_proof`.  `Add`/`Mul` index `inputs[a]`, `inputs[b]`,
`inputs[output]` (out-of-range panics).  `Hash` indexes only `inputs[a]` and
`inputs[b]`, calls `apply_hash` (panic when no hash function is configured),
and stores the *computed* hash as the output term value — `inputs[output]`
is never read. -/
def compileGate (hash_function : Option (Int → Int → Int)) (inputs : List Int) :
    Gate → Except PanicKind Constraint
  | .add a b output =>
    match inputs[a]?, inputs[b]?, inputs[output]? with
    | some va, some vb, some vo =>
      .ok ⟨[(⟨a, va⟩, 1)], [(⟨b, vb⟩, 1)], [(⟨output, vo⟩, 1)], .add⟩
    | _, _, _ => .error .indexOutOfBounds
  | .mul a b output =>
    match inputs[a]?, inputs[b]?, inputs[output]? with
    | some va, some vb, some vo =>
      .ok ⟨[(⟨a, va⟩, 1)], [(⟨b, vb⟩, 1)], [(⟨output, vo⟩, 1)], .mul⟩
    | _, _, _ => .error .indexOutOfBounds
  | .hash a b output =>
    match inputs[a]?, inputs[b]? with
    | some va, some vb =>
      match hash_function with
      | some f => .ok ⟨[(⟨a, va⟩, 1)], [(⟨b, vb⟩, 1)], [(⟨output, f va vb⟩, 1)], .hash⟩
      | none => .error .hashFunctionNotDefined
    | _, _ => .error .indexOutOfBounds

/-- The gate loop of `Circuit::generate_proof`: gates translated in insertion
order, the first panic aborting the whole run. -/
def compileCircuit (hash_function : Option (Int → Int → Int)) (inputs : List Int) :
    List Gate → Except PanicKind (List Constraint)
  | [] => .ok []
  | g :: gs =>
    match compileGate hash_function inputs g with
    | .ok c =>
      match compileCircuit hash_function inputs gs with
      | .ok cs => .ok (c :: cs)
      | .error e => .error e
    | .error e => .error e

/-- The satisfiability verdict computed by `Circuit::generate_proof`:
translate every gate, then run `is_satisfied` with the circuit's hash
closure.  (The `variables` field of the R1CS is never read by
`is_satisfied`, so it is not modelled here.) -/
def generate_proof (hash_function : Option (Int → Int → Int)) (inputs : List Int)
    (gates : List Gate) : Except PanicKind Bool :=
  match compileCircuit hash_function inputs gates with
  | .ok cs => is_satisfied hash_function cs
  | .error e => .error e

/-- The single verdict byte written by `Circuit::generate_proof`:
`&[is_valid as u8]`, i.e. 1 for satisfied and 0 for not. -/
def persistVerdict (is_valid : Bool) : List Nat :=
  [cond is_valid 1 0]

/-- `Circuit::verify_proof`: panics unless the persisted data is exactly one
byte, then returns whether that byte equals 1. -/
def verify_proof (proof_data : List Nat) : Except PanicKind Bool :=
  if proof_data.length ≠ 1 then .error .invalidProofDataFormat
  else .ok (decide (proof_data.getD 0 0 = 1))

/-! ## merkle.rs -/

/-- One level-up step of the tree: `nodes.chunks(2)` mapped by hashing full
pairs and promoting a final unpaired node unchanged (both
`MerkleTree::compute_root` and `MerkleTree::merkle_path` use this shape). -/
def buildLevel (hash_function : Int → Int → Int) : List Int → List Int
  | a :: b :: rest => hash_function a b :: buildLevel hash_function rest
  | [a] => [a]
  | [] => []

/-- Length of one built level: half the nodes, rounded up. -/
theorem buildLevel_length (hf : Int → Int → Int) (l : List Int) :
    (buildLevel hf l).length = (l.length + 1) / 2 := by
  induction l using buildLevel.induct hf with
  | case1 a b rest ih => simp [buildLevel, ih]; omega
  | case2 a => simp [buildLevel]
  | case3 => simp [buildLevel]

/-- `MerkleTree::compute_root`: repeat `buildLevel` while more than one node
remains, then return `nodes[0]` — which panics (index out of bounds) when the
leaf list was empty. -/
def computeRoot (hash_function : Int → Int → Int) : List Int → Except PanicKind Int
  | [] => .error .indexOutOfBounds
  | [a] => .ok a
  | a :: b :: rest => computeRoot hash_function (buildLevel hash_function (a :: b :: rest))
termination_by l => l.length
decreasing_by
  simp [buildLevel, buildLevel_length]
  omega

/-- `MerkleTree::merkle_path`: walk up level by level; at each level with more
than one node, push `(nodes[sibling_index], current_index % 2 == 0)` when
`sibling_index < nodes.len()` (the only indexing is under this guard, so the
function has no panic left to raise), then move to the parent index. -/
def merklePath (hash_function : Int → Int → Int) :
    List Int → Nat → Except PanicKind (List (Int × Bool))
  | [], _ => .ok []
  | [_], _ => .ok []
  | a :: b :: rest, current_index =>
    let nodes := a :: b :: rest
    let sibling_index := if current_index % 2 = 0 then current_index + 1 else current_index - 1
    let entry : List (Int × Bool) :=
      if sibling_index < nodes.length then
        [(nodes.getD sibling_index 0, decide (current_index % 2 = 0))]
      else []
    match merklePath hash_function (buildLevel hash_function nodes) (current_index / 2) with
    | .ok path => .ok (entry ++ path)
    | .error e => .error e
termination_by l _ => l.length
decreasing_by
  simp [buildLevel, buildLevel_length]
  omega

/-- `MerkleTree` (the stored hash function is passed explicitly instead). -/
structure MerkleTree where
  root : Int
  leaves : List Int
deriving DecidableEq, Repr

/-- `MerkleTree::new`: computes the root immediately; the root computation is
where an empty leaf list panics. -/
def MerkleTree.new (hash_function : Int → Int → Int) (leaves : List Int) :
    Except PanicKind MerkleTree :=
  match computeRoot hash_function leaves with
  | .ok r => .ok ⟨r, leaves⟩
  | .error e => .error e

/-- Recomputing a root candidate from a leaf value along a returned path,
hashing `(node, sibling)` when the flag says the node is a left child and
`(sibling, node)` otherwise. -/
def foldPath (hash_function : Int → Int → Int) (leaf : Int) (path : List (Int × Bool)) : Int :=
  path.foldl (fun acc e => if e.2 then hash_function acc e.1 else hash_function e.1 acc) leaf

/-! ## Equation lemmas for the well-founded merkle recursions -/

theorem computeRoot_nil (hf : Int → Int → Int) :
    computeRoot hf [] = .error .indexOutOfBounds := by
  simp [computeRoot]

theorem computeRoot_singleton (hf : Int → Int → Int) (a : Int) :
    computeRoot hf [a] = .ok a := by
  simp [computeRoot]

theorem computeRoot_cons (hf : Int → Int → Int) (a b : Int) (rest : List Int) :
    computeRoot hf (a :: b :: rest) = computeRoot hf (buildLevel hf (a :: b :: rest)) := by
  rw [computeRoot]

theorem merklePath_nil (hf : Int → Int → Int) (i : Nat) :
    merklePath hf [] i = .ok [] := by
  simp [merklePath]

theorem merklePath_singleton (hf : Int → Int → Int) (a : Int) (i : Nat) :
    merklePath hf [a] i = .ok [] := by
  simp [merklePath]

theorem merklePath_cons (hf : Int → Int → Int) (a b : Int) (rest : List Int) (i : Nat) :
    merklePath hf (a :: b :: rest) i =
      (match merklePath hf (buildLevel hf (a :: b :: rest)) (i / 2) with
       | .ok path =>
         .ok ((if (if i % 2 = 0 then i + 1 else i - 1) < (a :: b :: rest).length then
                 [((a :: b :: rest).getD (if i % 2 = 0 then i + 1 else i - 1) 0,
                   decide (i % 2 = 0))]
               else []) ++ path)
       | .error e => .error e) := by
  rw [merklePath]

/-! ## Helper lemmas -/

theorem buildLevel_ne_nil (hf : Int → Int → Int) (l : List Int) (hl : l ≠ []) :
    buildLevel hf l ≠ [] := by
  have hlen := buildLevel_length hf l
  have h0 : l.length ≠ 0 := by simpa [List.length_eq_zero] using hl
  intro h
  rw [h] at hlen
  simp at hlen
  omega

/-- `compute_root` succeeds on every nonempty node list. -/
theorem computeRoot_isOk (hf : Int → Int → Int) (l : List Int) (hl : l ≠ []) :
    ∃ r, computeRoot hf l = .ok r := by
  match l with
  | [a] => exact ⟨a, computeRoot_singleton hf a⟩
  | a :: b :: rest =>
    rw [computeRoot_cons]
    exact computeRoot_isOk hf (buildLevel hf (a :: b :: rest))
      (buildLevel_ne_nil hf _ (by simp))
termination_by l.length
decreasing_by
  simp [buildLevel, buildLevel_length]
  omega

/-- `merkle_path` succeeds on every node list and every index. -/
theorem merklePath_isOk (hf : Int → Int → Int) (l : List Int) (i : Nat) :
    ∃ p, merklePath hf l i = .ok p := by
  match l with
  | [] => exact ⟨[], merklePath_nil hf i⟩
  | [a] => exact ⟨[], merklePath_singleton hf a i⟩
  | a :: b :: rest =>
    obtain ⟨p, hp⟩ := merklePath_isOk hf (buildLevel hf (a :: b :: rest)) (i / 2)
    rw [merklePath_cons, hp]
    exact ⟨_, rfl⟩
termination_by l.length
decreasing_by
  simp [buildLevel, buildLevel_length]
  omega

/-- Entry `j` of a built level is the hash of entries `2j` and `2j+1` below. -/
theorem buildLevel_getD (hf : Int → Int → Int) (l : List Int) (j : Nat)
    (hj : 2 * j + 1 < l.length) :
    (buildLevel hf l).getD j 0 = hf (l.getD (2 * j) 0) (l.getD (2 * j + 1) 0) := by
  induction l using buildLevel.induct hf generalizing j with
  | case1 a b rest ih =>
    match j with
    | 0 => simp [buildLevel]
    | j + 1 =>
      have hj2 : 2 * j + 1 < rest.length := by simp at hj; omega
      have e1 : 2 * (j + 1) = 2 * j + 1 + 1 := by ring
      have e2 : 2 * (j + 1) + 1 = 2 * j + 1 + 1 + 1 := by ring
      simp only [buildLevel, e1, e2, List.getD_cons_succ]
      exact ih j hj2
  | case2 a => simp at hj
  | case3 => simp at hj

/-- C2: for a power-of-two leaf count `n = 2^k`, every hash function and
every leaf index `i < n`, folding the leaf value upward through the pairs
returned by `merkle_path i` — hashing `(node, sibling)` when the
left-child flag is true and `(sibling, node)` when it is false — produces
exactly the root computed by `compute_root`. -/
theorem merkle_path_reconstructs_root (hf : Int → Int → Int) (k : Nat)
    (leaves : List Int) (i : Nat) (hlen : leaves.length = 2 ^ k)
    (hi : i < leaves.length) :
    ∃ p, merklePath hf leaves i = .ok p ∧
      computeRoot hf leaves = .ok (foldPath hf (leaves.getD i 0) p) := by
  induction k generalizing leaves i with
  | zero =>
    simp only [pow_zero] at hlen
    obtain ⟨a, rfl⟩ := List.length_eq_one.mp hlen
    have hi0 : i = 0 := by simp at hi; omega
    subst hi0
    exact ⟨[], merklePath_singleton hf a 0, by simp [computeRoot_singleton, foldPath]⟩
  | succ k ih =>
    have hlen2 : 2 ≤ leaves.length := by
      rw [hlen, pow_succ]
      have := Nat.one_le_pow k 2 (by norm_num)
      omega
    obtain ⟨a, b, rest, rfl⟩ : ∃ a b rest, leaves = a :: b :: rest := by
      cases leaves with
      | nil => simp at hlen2
      | cons a t =>
        cases t with
        | nil => simp at hlen2
        | cons b rest => exact ⟨a, b, rest, rfl⟩
    have hNlen : (buildLevel hf (a :: b :: rest)).length = 2 ^ k := by
      rw [buildLevel_length, hlen, pow_succ]
      omega
    have hpow : (a :: b :: rest).length = 2 ^ k * 2 := by rw [hlen, pow_succ]
    have hhalf : i / 2 < (buildLevel hf (a :: b :: rest)).length := by
      rw [hNlen]
      omega
    obtain ⟨p, hp, hr⟩ := ih (buildLevel hf (a :: b :: rest)) (i / 2) hNlen hhalf
    have hsib : (if i % 2 = 0 then i + 1 else i - 1) < (a :: b :: rest).length := by
      rcases Nat.even_or_odd i with he | ho
      · have h2 : i % 2 = 0 := Nat.even_iff.mp he
        simp only [h2, if_pos]
        omega
      · have h2 : i % 2 = 1 := Nat.odd_iff.mp ho
        rw [if_neg (by omega)]
        omega
    have hstep : (buildLevel hf (a :: b :: rest)).getD (i / 2) 0 =
        (if decide (i % 2 = 0) = true
          then hf ((a :: b :: rest).getD i 0)
                  ((a :: b :: rest).getD (if i % 2 = 0 then i + 1 else i - 1) 0)
          else hf ((a :: b :: rest).getD (if i % 2 = 0 then i + 1 else i - 1) 0)
                  ((a :: b :: rest).getD i 0)) := by
      rcases Nat.even_or_odd i with he | ho
      · have h2 : i % 2 = 0 := Nat.even_iff.mp he
        have hj : 2 * (i / 2) + 1 < (a :: b :: rest).length := by
          simp only [h2, if_pos] at hsib
          omega
        rw [buildLevel_getD hf _ _ hj]
        have e0 : 2 * (i / 2) = i := by omega
        have e1 : 2 * (i / 2) + 1 = i + 1 := by omega
        simp [h2, e0, e1]
      · have h2 : i % 2 = 1 := Nat.odd_iff.mp ho
        have hj : 2 * (i / 2) + 1 < (a :: b :: rest).length := by omega
        rw [buildLevel_getD hf _ _ hj]
        have e1 : 2 * (i / 2) + 1 = i := by omega
        have e0 : 2 * (i / 2) = i - 1 := by omega
        rw [e1, e0, if_neg (by omega : ¬ i % 2 = 0)]
        simp [h2]
    refine ⟨(if (if i % 2 = 0 then i + 1 else i - 1) < (a :: b :: rest).length then
        [((a :: b :: rest).getD (if i % 2 = 0 then i + 1 else i - 1) 0,
          decide (i % 2 = 0))]
      else []) ++ p, ?_, ?_⟩
    · rw [merklePath_cons, hp]
    · rw [computeRoot_cons, hr, if_pos hsib]
      simp only [foldPath, List.foldl_cons, List.foldl_append, List.foldl_nil]
      rw [← hstep]

/-- A gate mentioning no hash operation. -/
def Gate.usesHash : Gate → Bool
  | .hash _ _ _ => true
  | .add _ _ _ => false
  | .mul _ _ _ => false

/-- All three indices of a gate lie below the input count `n`. -/
def Gate.inBounds (n : Nat) : Gate → Bool
  | .add a b output => decide (a < n) && decide (b < n) && decide (output < n)
  | .mul a b output => decide (a < n) && decide (b < n) && decide (output < n)
  | .hash a b output => decide (a < n) && decide (b < n) && decide (output < n)

/-- An in-bounds non-hash gate always compiles, to a non-hash constraint. -/
theorem compileGate_ok_of_inBounds (hfo : Option (Int → Int → Int)) (inputs : List Int)
    (g : Gate) (hbnd : Gate.inBounds inputs.length g = true)
    (hng : Gate.usesHash g = false) :
    ∃ c, compileGate hfo inputs g = .ok c ∧ c.operation ≠ Operation.hash := by
  cases g with
  | add a b output =>
    simp only [Gate.inBounds, Bool.and_eq_true, decide_eq_true_eq] at hbnd
    obtain ⟨⟨ha, hb⟩, ho⟩ := hbnd
    have e1 : inputs[a]? = some inputs[a] := List.getElem?_eq_getElem ha
    have e2 : inputs[b]? = some inputs[b] := List.getElem?_eq_getElem hb
    have e3 : inputs[output]? = some inputs[output] := List.getElem?_eq_getElem ho
    exact ⟨⟨[(⟨a, inputs[a]⟩, 1)], [(⟨b, inputs[b]⟩, 1)],
      [(⟨output, inputs[output]⟩, 1)], .add⟩, by simp [compileGate, e1, e2, e3], by simp⟩
  | mul a b output =>
    simp only [Gate.inBounds, Bool.and_eq_true, decide_eq_true_eq] at hbnd
    obtain ⟨⟨ha, hb⟩, ho⟩ := hbnd
    have e1 : inputs[a]? = some inputs[a] := List.getElem?_eq_getElem ha
    have e2 : inputs[b]? = some inputs[b] := List.getElem?_eq_getElem hb
    have e3 : inputs[output]? = some inputs[output] := List.getElem?_eq_getElem ho
    exact ⟨⟨[(⟨a, inputs[a]⟩, 1)], [(⟨b, inputs[b]⟩, 1)],
      [(⟨output, inputs[output]⟩, 1)], .mul⟩, by simp [compileGate, e1, e2, e3], by simp⟩
  | hash a b output => simp [Gate.usesHash] at hng

/-- A gate list of in-bounds non-hash gates compiles to non-hash constraints. -/
theorem compileCircuit_ok_no_hash (hfo : Option (Int → Int → Int)) (inputs : List Int) :
    ∀ gates : List Gate,
      (∀ g ∈ gates, Gate.inBounds inputs.length g = true) →
      (∀ g ∈ gates, Gate.usesHash g = false) →
      ∃ cs, compileCircuit hfo inputs gates = .ok cs ∧
        ∀ c ∈ cs, c.operation ≠ Operation.hash := by
  intro gates
  induction gates with
  | nil => exact fun _ _ => ⟨[], rfl, by simp⟩
  | cons g gs ih =>
    intro hbnd hng
    obtain ⟨c, hc, hcop⟩ :=
      compileGate_ok_of_inBounds hfo inputs g (hbnd g (by simp)) (hng g (by simp))
    obtain ⟨cs, hcs, hcsop⟩ :=
      ih (fun g0 hg0 => hbnd g0 (by simp [hg0])) (fun g0 hg0 => hng g0 (by simp [hg0]))
    refine ⟨c :: cs, by simp [compileCircuit, hc, hcs], ?_⟩
    intro c0 hc0
    rcases List.mem_cons.mp hc0 with rfl | h0
    · exact hcop
    · exact hcsop c0 h0

/-- `is_satisfied` never panics on a constraint list free of hash operations:
the hash closure is only invoked for `Hash` constraints. -/
theorem is_satisfied_ok_no_hash (hfo : Option (Int → Int → Int)) :
    ∀ cs : List Constraint, (∀ c ∈ cs, c.operation ≠ Operation.hash) →
      ∃ b, is_satisfied hfo cs = .ok b := by
  intro cs
  induction cs with
  | nil => exact fun _ => ⟨true, rfl⟩
  | cons c cs ih =>
    intro hop
    have hc : ∃ bb, checkConstraint hfo c = .ok bb := by
      have hop1 := hop c (by simp)
      unfold checkConstraint
      cases hcop : c.operation with
      | add => exact ⟨_, rfl⟩
      | mul => exact ⟨_, rfl⟩
      | hash => exact absurd hcop hop1
    obtain ⟨bb, hbb⟩ := hc
    cases bb with
    | true =>
      obtain ⟨b2, hb2⟩ := ih (fun c0 h0 => hop c0 (by simp [h0]))
      exact ⟨b2, by simp [is_satisfied, hbb, hb2]⟩
    | false => exact ⟨false, by simp [is_satisfied, hbb]⟩

/-- Building a level over an odd number of nodes leaves the last node
(the promoted one) unchanged at the end of the new level. -/
theorem buildLevel_getLast (hf : Int → Int → Int) :
    ∀ l : List Int, l.length % 2 = 1 → (buildLevel hf l).getLast? = l.getLast? := by
  intro l
  induction l using buildLevel.induct hf with
  | case1 a b rest ih =>
    intro hodd
    have hrodd : rest.length % 2 = 1 := by simp at hodd; omega
    have hrne : rest ≠ [] := by
      intro h
      rw [h] at hrodd
      simp at hrodd
    have hbne : buildLevel hf rest ≠ [] := buildLevel_ne_nil hf rest hrne
    obtain ⟨x, xs, hxx⟩ := List.exists_cons_of_ne_nil hbne
    obtain ⟨c, cs, hcc⟩ := List.exists_cons_of_ne_nil hrne
    rw [show buildLevel hf (a :: b :: rest) = hf a b :: buildLevel hf rest from rfl,
      hxx, List.getLast?_cons_cons, ← hxx, ih hrodd, List.getLast?_cons_cons, hcc,
      List.getLast?_cons_cons]
  | case2 a => intro _; rfl
  | case3 => intro h; simp at h

/-! ## Claims -/

/-- C1 (counterexample): a circuit with inputs `1, 2` and declared output
input `5 ≠ hash(1, 2) = 3` under the additive hash, with the single gate
`Hash(0, 1, 2)`, still compiles and checks as satisfied — refuting the claim
that every declared output different from `hash(x, y)` makes `is_satisfied`
false. -/
theorem hash_gate_output_ignored_cex :
    generate_proof (some (fun a b : Int => a + b)) [1, 2, 5] [Gate.hash 0 1 2] = .ok true ∧
    (5 : Int) ≠ (fun a b : Int => a + b) 1 2 := by
  exact ⟨rfl, by decide⟩

/-- C1 (amended): for a circuit containing a Hash gate with inputs `x, y`,
`generate_proof` followed by `is_satisfied` yields true for EVERY value `d`
stored as the declared output input — including `d = hash(x, y)` — because
the compiler overwrites the constraint's output term with the freshly
computed hash and never reads the stored input at the output index. -/
theorem hash_gate_always_satisfied (hf : Int → Int → Int) (x y d : Int) :
    generate_proof (some hf) [x, y, d] [Gate.hash 0 1 2] = .ok true := by
  simp [generate_proof, compileCircuit, compileGate, is_satisfied, checkConstraint, lcValue]

/-- C2 witness at the additive hash, leaves `[1, 2]`, index 0. -/
theorem merkle_path_reconstructs_root_witness :
    ∃ p, merklePath (fun a b : Int => a + b) [1, 2] 0 = .ok p ∧
      computeRoot (fun a b : Int => a + b) [1, 2] =
        .ok (foldPath (fun a b : Int => a + b) (([1, 2] : List Int).getD 0 0) p) :=
  merkle_path_reconstructs_root (fun a b => a + b) 1 [1, 2] 0 (by decide) (by decide)

/-- C3: for a circuit with three inputs `x, y, z` and the single gate
`Add(0,1,2)`, the compiled system is satisfied exactly when `x + y = z`
(any input combination breaking the equality yields false), and analogously
for `Mul(0,1,2)` with multiplication. -/
theorem add_mul_gate_satisfiability (x y z : Int) :
    ((x + y = z → generate_proof none [x, y, z] [Gate.add 0 1 2] = .ok true) ∧
     (x + y ≠ z → generate_proof none [x, y, z] [Gate.add 0 1 2] = .ok false)) ∧
    ((x * y = z → generate_proof none [x, y, z] [Gate.mul 0 1 2] = .ok true) ∧
     (x * y ≠ z → generate_proof none [x, y, z] [Gate.mul 0 1 2] = .ok false)) := by
  refine ⟨⟨?_, ?_⟩, ?_, ?_⟩ <;> intro h <;>
    simp [generate_proof, compileCircuit, compileGate, is_satisfied, checkConstraint,
      lcValue, h]

/-- C3 witness: the satisfied addition circuit `10 + 20 = 30` and an
unsatisfied multiplication circuit `5 * 4 ≠ 21`. -/
theorem add_mul_gate_satisfiability_witness :
    generate_proof none [10, 20, 30] [Gate.add 0 1 2] = .ok true ∧
    generate_proof none [5, 4, 21] [Gate.mul 0 1 2] = .ok false :=
  ⟨(add_mul_gate_satisfiability 10 20 30).1.1 (by decide),
   (add_mul_gate_satisfiability 5 4 21).2.2 (by decide)⟩

/-- C4: for every level of odd length the final unpaired node is promoted
unchanged (it stays the last node of the next level); concretely for leaves
`[1, 2, 3]` the level above is `[hash(1,2), 3]`, the root is
`hash(hash(1,2), 3)`, and the path of leaf 2 (the promoted chain) has no
entry at the leaf level, where that node had no sibling. -/
theorem odd_promotion_spec (hf : Int → Int → Int) (l : List Int)
    (hodd : l.length % 2 = 1) :
    (buildLevel hf l).getLast? = l.getLast? ∧
    buildLevel hf [1, 2, 3] = [hf 1 2, 3] ∧
    computeRoot hf [1, 2, 3] = .ok (hf (hf 1 2) 3) ∧
    merklePath hf [1, 2, 3] 2 = .ok [(hf 1 2, false)] := by
  refine ⟨buildLevel_getLast hf l hodd, rfl, ?_, ?_⟩
  · rw [computeRoot_cons, show buildLevel hf [1, 2, 3] = [hf 1 2, 3] from rfl,
      computeRoot_cons, show buildLevel hf [hf 1 2, 3] = [hf (hf 1 2) 3] from rfl,
      computeRoot_singleton]
  · rw [merklePath_cons, show buildLevel hf [1, 2, 3] = [hf 1 2, 3] from rfl,
      merklePath_cons, show buildLevel hf [hf 1 2, 3] = [hf (hf 1 2) 3] from rfl,
      merklePath_singleton]
    simp

/-- C4 witness at the additive hash and the odd singleton level `[5]`. -/
theorem odd_promotion_spec_witness :
    (buildLevel (fun a b : Int => a + b) [5]).getLast? = ([5] : List Int).getLast? ∧
    buildLevel (fun a b : Int => a + b) [1, 2, 3] = [3, 3] ∧
    computeRoot (fun a b : Int => a + b) [1, 2, 3] = .ok 6 ∧
    merklePath (fun a b : Int => a + b) [1, 2, 3] 2 = .ok [(3, false)] :=
  odd_promotion_spec (fun a b => a + b) [5] (by decide)

/-- C5: `is_satisfied` checks constraints in insertion order; if every
constraint's check passes it returns true, and as soon as one fails it
returns false with an answer independent of everything after the failing
constraint (the remaining constraints — even ones whose check would panic —
are never evaluated). -/
theorem is_satisfied_short_circuits (hash_function : Option (Int → Int → Int))
    (cs pre rest : List Constraint) (c : Constraint) :
    ((∀ c0 ∈ cs, checkConstraint hash_function c0 = .ok true) →
       is_satisfied hash_function cs = .ok true) ∧
    ((∀ c0 ∈ pre, checkConstraint hash_function c0 = .ok true) →
       checkConstraint hash_function c = .ok false →
       is_satisfied hash_function (pre ++ c :: rest) = .ok false) := by
  constructor
  · induction cs with
    | nil => exact fun _ => rfl
    | cons d ds ih =>
      intro hall
      have hd := hall d (by simp)
      simp only [is_satisfied, hd]
      exact ih (fun c0 hc0 => hall c0 (by simp [hc0]))
  · intro hpre hc
    induction pre with
    | nil => simp only [List.nil_append, is_satisfied, hc]
    | cons d ds ih =>
      have hd := hpre d (by simp)
      simp only [List.cons_append, is_satisfied, hd]
      exact ih (fun c0 hc0 => hpre c0 (by simp [hc0]))

/-- C5 witness: a failing Add constraint (`1 + 1 ≠ 3`) followed by a Hash
constraint that would panic (no hash function) — the verdict is still a
clean false, so the tail was never evaluated. -/
theorem is_satisfied_short_circuits_witness :
    is_satisfied none [] = .ok true ∧
    is_satisfied none
      ([] ++ (⟨[(⟨0, 1⟩, 1)], [(⟨1, 1⟩, 1)], [(⟨2, 3⟩, 1)], .add⟩ : Constraint) ::
        [⟨[], [], [], Operation.hash⟩]) = .ok false := by
  have h := is_satisfied_short_circuits none [] [] [⟨[], [], [], Operation.hash⟩]
    ⟨[(⟨0, 1⟩, 1)], [(⟨1, 1⟩, 1)], [(⟨2, 3⟩, 1)], .add⟩
  exact ⟨h.1 (by intro c0 hc0; simp at hc0),
    h.2 (by intro c0 hc0; simp at hc0) (by rfl)⟩

/-- C6 (counterexample): `merkle_path` called with index 5 on a two-leaf
tree — an index well beyond `leaves.len()` — returns a path (the empty one)
instead of aborting, refuting the claimed fatal error. -/
theorem merkle_path_oob_returns_cex :
    merklePath (fun a b : Int => a + b) [1, 2] 5 = .ok [] ∧
    ¬ 5 < ([1, 2] : List Int).length := by
  constructor
  · rw [merklePath_cons, show buildLevel (fun a b : Int => a + b) [1, 2] = [3] from rfl,
      merklePath_singleton]
    simp
  · decide

/-- C6 (amended): `merkle_path` performs no bounds check on the index: for
every tree and every index, including every index at or beyond the number of
leaves, it returns a path normally rather than raising a fatal error. -/
theorem merkle_path_oob_total (hf : Int → Int → Int) (leaves : List Int) (index : Nat)
    (_hge : leaves.length ≤ index) :
    ∃ p, merklePath hf leaves index = .ok p :=
  merklePath_isOk hf leaves index

/-- C6 amended-claim witness at leaves `[4, 5, 6]` and index 7. -/
theorem merkle_path_oob_total_witness :
    ([4, 5, 6] : List Int).length ≤ 7 ∧
    ∃ p, merklePath (fun a b : Int => 2 * a + b) [4, 5, 6] 7 = .ok p :=
  ⟨by decide, merkle_path_oob_total (fun a b => 2 * a + b) [4, 5, 6] 7 (by decide)⟩

/-- C7: persisting a verdict as its single byte (1 for satisfied, 0 for not)
and reading it back with `verify_proof` returns the same boolean, while any
persisted data that is not exactly one byte is a fatal format error. -/
theorem verdict_roundtrip (b : Bool) (proof_data : List Nat)
    (hlen : proof_data.length ≠ 1) :
    verify_proof (persistVerdict b) = .ok b ∧
    verify_proof proof_data = .error .invalidProofDataFormat := by
  constructor
  · cases b <;> rfl
  · simp [verify_proof, hlen]

/-- C7 witness: round-trip of `true` and the format error on empty data. -/
theorem verdict_roundtrip_witness :
    verify_proof (persistVerdict true) = .ok true ∧
    verify_proof [] = .error .invalidProofDataFormat :=
  verdict_roundtrip true [] (by decide)

/-- C8: constructing a Merkle tree from an empty leaf sequence is a fatal
error (the `nodes[0]` read inside the root computation aborts), while any
nonempty leaf sequence yields a tree. -/
theorem merkle_new_empty_fatal (hf : Int → Int → Int) (l : List Int) (hl : l ≠ []) :
    MerkleTree.new hf [] = .error .indexOutOfBounds ∧
    ∃ t, MerkleTree.new hf l = .ok t := by
  constructor
  · simp [MerkleTree.new, computeRoot_nil]
  · obtain ⟨r, hr⟩ := computeRoot_isOk hf l hl
    exact ⟨⟨r, l⟩, by simp [MerkleTree.new, hr]⟩

/-- C8 witness at the additive hash and the singleton leaf list `[7]`. -/
theorem merkle_new_empty_fatal_witness :
    MerkleTree.new (fun a b : Int => a + b) [] = .error .indexOutOfBounds ∧
    ∃ t, MerkleTree.new (fun a b : Int => a + b) [7] = .ok t :=
  merkle_new_empty_fatal (fun a b => a + b) [7] (by simp)

/-- C9: a circuit whose gates are all in bounds and contain no Hash gate
runs `generate_proof` to a verdict even with no hashing capability
configured: the hash closure — and so its "hash function not defined"
panic — is only reached for Hash constraints. -/
theorem no_hash_gate_no_config_error (inputs : List Int) (gates : List Gate)
    (hbnd : ∀ g ∈ gates, Gate.inBounds inputs.length g = true)
    (hng : ∀ g ∈ gates, Gate.usesHash g = false) :
    ∃ b, generate_proof none inputs gates = .ok b := by
  obtain ⟨cs, hcs, hop⟩ := compileCircuit_ok_no_hash none inputs gates hbnd hng
  obtain ⟨b, hsat⟩ := is_satisfied_ok_no_hash none cs hop
  exact ⟨b, by simp [generate_proof, hcs, hsat]⟩

/-- C9 witness: a hash-free two-gate circuit, no hash function configured. -/
theorem no_hash_gate_no_config_error_witness :
    ∃ b, generate_proof none [10, 20, 30] [Gate.add 0 1 2, Gate.mul 0 0 0] = .ok b :=
  no_hash_gate_no_config_error [10, 20, 30] [Gate.add 0 1 2, Gate.mul 0 0 0]
    (by decide) (by decide)

/-- C10: for a single-leaf tree the root is the leaf value itself, with no
hash applied (the equality holds for every hash function), and the
authentication path of leaf 0 is empty. -/
theorem single_leaf_tree_spec (hf : Int → Int → Int) (a : Int) :
    computeRoot hf [a] = .ok a ∧ merklePath hf [a] 0 = .ok [] :=
  ⟨computeRoot_singleton hf a, merklePath_singleton hf a 0⟩

end ZKMock
